import Mathlib

/-!
# Verification of the `quick-protobuf` decoding engine

A shallow embedding of `src/src/reader.rs` (the protobuf `Reader`) and
`src/src/packed.rs` (the `Packed` iterator), together with theorems about
varint decoding, zig-zag decoding, length-budget bookkeeping, framing of
nested messages and packed fields, and skipping of unknown fields.

Modelling conventions:
* the underlying byte source (`R: Read`) is a list of bytes (`List Nat`,
  each entry intended `< 256`); a failed underlying read is the error
  `ErrorKind.Io` and, as for Rust's `&[u8]` reader, consumes nothing;
* `usize` arithmetic on the length budget is wrapping arithmetic
  modulo `2 ^ 64` (release-mode semantics of `len -= n`), made explicit
  through `wsub`;
* `&mut self` methods become state-passing functions
  `Reader → Except ErrorKind α × Reader`; the reader state is returned in
  the error case as well, since Rust keeps the mutated `self` on `?`.
-/

namespace QuickProtobuf

/-- The modulus of `usize`/`u64` arithmetic (the crate targets 64-bit). -/
def USIZE : Nat := 2 ^ 64

/-- Wrapping subtraction modulo `2 ^ 64`: the semantics of `a - b` on
`usize` in release mode, used for every `self.len -= n` of the source. -/
def wsub (a b : Nat) : Nat := (a + (USIZE - b % USIZE)) % USIZE

/-- The error kinds of the `errors` module that `reader.rs` can produce:
an underlying I/O failure, a malformed tenth varint byte, the deprecated
group wire types, and an unrecognized wire type. -/
inductive ErrorKind where
  | Io : ErrorKind
  | Varint : ErrorKind
  | Deprecated : String → ErrorKind
  | UnknownWireType : Nat → ErrorKind
deriving DecidableEq

/-- Struct `Reader<R>` of `src/src/reader.rs`: the underlying byte source and the
remaining-length budget `len`. -/
structure Reader where
  inner : List Nat
  len : Nat
deriving DecidableEq

/-- Constructor `Reader::from_reader`: a reader over `r` with maximum `len` bytes to read. -/
def from_reader (r : List Nat) (len : Nat) : Reader := { inner := r, len := len }

/-- Method `Reader::is_eof`: checks if `self.len == 0`. -/
def Reader.is_eof (s : Reader) : Bool := s.len == 0

/-- Method `byteorder::ReadBytesExt::read_u8` on the underlying source: pop one
byte, or fail with an I/O error (consuming nothing) when the source is
exhausted. -/
def read_u8 (s : Reader) : Except ErrorKind Nat × Reader :=
  match s.inner with
  | [] => (Except.error ErrorKind.Io, s)
  | b :: rest => (Except.ok b, { s with inner := rest })

/-- The body of `Reader::read_varint`, with the number of remaining
iterations of the `for _ in 0..9` loop made explicit as fuel.  Fuel `0` is
the code after the loop: the tenth byte must be `0` or `1` (it can only
carry bit 63), anything else is `ErrorKind.Varint`.  Each iteration first
performs `self.len -= 1` (wrapping) and then reads a byte, ORing its low
7 bits into the accumulator `r` at shift `i`. -/
def readVarintLoop : Nat → Nat → Nat → Reader → Except ErrorKind Nat × Reader
  | 0, r, _, s =>
    (match read_u8 { s with len := wsub s.len 1 } with
     | (Except.error e, s') => (Except.error e, s')
     | (Except.ok b, s') =>
       if b = 0 then (Except.ok r, s')
       else if b = 1 then (Except.ok (r ||| (1 <<< 63)), s')
       else (Except.error ErrorKind.Varint, s'))
  | (k+1), r, i, s =>
    (match read_u8 { s with len := wsub s.len 1 } with
     | (Except.error e, s') => (Except.error e, s')
     | (Except.ok b, s') =>
       if b < 0x80 then (Except.ok (r ||| ((b &&& 0x7f) <<< i)), s')
       else readVarintLoop k (r ||| ((b &&& 0x7f) <<< i)) (i + 7) s')

/-- Method `Reader::read_varint`: nine loop iterations starting with accumulator
`0` and shift `0`, then the tenth-byte epilogue. -/
def read_varint (s : Reader) : Except ErrorKind Nat × Reader :=
  readVarintLoop 9 0 0 s

/-- Method `Reader::next_tag`: `self.read_varint().map(|i| i as u32)`. -/
def next_tag (s : Reader) : Except ErrorKind Nat × Reader :=
  match read_varint s with
  | (Except.error e, s') => (Except.error e, s')
  | (Except.ok v, s') => (Except.ok (v % 2 ^ 32), s')

/-- Reinterpret a 32-bit pattern (`< 2 ^ 32`) as an `i32`. -/
def toSigned32 (u : Nat) : Int :=
  if u < 2 ^ 31 then (u : Int) else (u : Int) - 2 ^ 32

/-- Reinterpret a 64-bit pattern (`< 2 ^ 64`) as an `i64`. -/
def toSigned64 (u : Nat) : Int :=
  if u < 2 ^ 63 then (u : Int) else (u : Int) - 2 ^ 64

/-- Method `Reader::read_sint32`: varint decode, `as u32`, then the zig-zag
inverse `((n >> 1) as i32) ^ (-((n & 1) as i32))`.  On bit patterns the
`i32` negation/xor is: xor of `n >> 1` with all-ones when `n` is odd and
with `0` when it is even, reinterpreted as a signed 32-bit value. -/
def read_sint32 (s : Reader) : Except ErrorKind Int × Reader :=
  match read_varint s with
  | (Except.error e, s') => (Except.error e, s')
  | (Except.ok v, s') =>
    let n := v % 2 ^ 32
    (Except.ok (toSigned32 ((n >>> 1) ^^^ (if n &&& 1 = 1 then 2 ^ 32 - 1 else 0))), s')

/-- Method `Reader::read_sint64`: varint decode then the zig-zag inverse
`((n >> 1) as i64) ^ (-((n & 1) as i64))`, on bit patterns as in
`read_sint32`. -/
def read_sint64 (s : Reader) : Except ErrorKind Int × Reader :=
  match read_varint s with
  | (Except.error e, s') => (Except.error e, s')
  | (Except.ok n, s') =>
    (Except.ok (toSigned64 ((n >>> 1) ^^^ (if n &&& 1 = 1 then 2 ^ 64 - 1 else 0))), s')

/-- Value of a little-endian byte list (first byte least significant). -/
def leVal : List Nat → Nat
  | [] => 0
  | b :: bs => b + 256 * leVal bs

/-- Method `Reader::read_fixed64`: `self.len -= 8` and then a little-endian
8-byte read (`read_u64::<LE>`), which fails without consuming when fewer
than 8 bytes remain. -/
def read_fixed64 (s : Reader) : Except ErrorKind Nat × Reader :=
  let s1 : Reader := { s with len := wsub s.len 8 }
  if 8 ≤ s1.inner.length then
    (Except.ok (leVal (s1.inner.take 8)), { s1 with inner := s1.inner.drop 8 })
  else (Except.error ErrorKind.Io, s1)

/-- Method `Reader::read_fixed32`: `self.len -= 4` and then a little-endian
4-byte read. -/
def read_fixed32 (s : Reader) : Except ErrorKind Nat × Reader :=
  let s1 : Reader := { s with len := wsub s.len 4 }
  if 4 ≤ s1.inner.length then
    (Except.ok (leVal (s1.inner.take 4)), { s1 with inner := s1.inner.drop 4 })
  else (Except.error ErrorKind.Io, s1)

/-- Method `Reader::read_bytes`: decode a varint length (`as usize`), perform the
unchecked `self.len -= len`, then `read_exact` that many bytes. -/
def read_bytes (s : Reader) : Except ErrorKind (List Nat) × Reader :=
  match read_varint s with
  | (Except.error e, s') => (Except.error e, s')
  | (Except.ok v, s') =>
    let n := v % USIZE
    let s2 : Reader := { s' with len := wsub s'.len n }
    if n ≤ s2.inner.length then
      (Except.ok (s2.inner.take n), { s2 with inner := s2.inner.drop n })
    else (Except.error ErrorKind.Io, s2)

/-- Method `Reader::read_message::<M>`: decode a varint length, save `cur_len`,
narrow the budget to the declared length, run the externally supplied
`M::from_reader`, and on success restore `self.len = cur_len - len`
(wrapping).  The nested decoder is an arbitrary state-passing function. -/
def read_message {α : Type} (fromReaderM : Reader → Except ErrorKind α × Reader)
    (s : Reader) : Except ErrorKind α × Reader :=
  match read_varint s with
  | (Except.error e, s') => (Except.error e, s')
  | (Except.ok v, s') =>
    let n := v % USIZE
    let cur_len := s'.len
    match fromReaderM { s' with len := n } with
    | (Except.error e, s2) => (Except.error e, s2)
    | (Except.ok msg, s2) => (Except.ok msg, { s2 with len := wsub cur_len n })

/-- The `while !self.is_eof() { v.push(read(self)?); }` loop of
`Reader::read_packed_repeated_field`, with fuel bounding the number of
iterations; `none` models the loop still running after `fuel` iterations
(the Rust loop has no intrinsic bound: an item decoder that consumes no
budget loops forever).  Items are accumulated in reverse. -/
def packedLoop {α : Type} (fuel : Nat) (read : Reader → Except ErrorKind α × Reader)
    (acc : List α) (s : Reader) : Option (Except ErrorKind (List α) × Reader) :=
  match fuel with
  | 0 => if s.is_eof then some (Except.ok acc.reverse, s) else none
  | fuel + 1 =>
    if s.is_eof then some (Except.ok acc.reverse, s)
    else
      match read s with
      | (Except.error e, s') => some (Except.error e, s')
      | (Except.ok m, s') => packedLoop fuel read (m :: acc) s'

/-- Method `Reader::read_packed_repeated_field`: decode a varint length, narrow
the budget to it, run the item loop, and on success restore
`self.len = cur_len - len` (wrapping).  The loop gets fuel equal to the
declared length; `C10` below shows this fuel is never exhausted for item
decoders that strictly consume budget, so `none` (divergence) does not
occur for them. -/
def read_packed_repeated_field {α : Type} (read : Reader → Except ErrorKind α × Reader)
    (s : Reader) : Option (Except ErrorKind (List α) × Reader) :=
  match read_varint s with
  | (Except.error e, s') => some (Except.error e, s')
  | (Except.ok v, s') =>
    let n := v % USIZE
    let cur_len := s'.len
    match packedLoop n read [] { s' with len := n } with
    | none => none
    | some (Except.error e, s2) => some (Except.error e, s2)
    | some (Except.ok items, s2) => some (Except.ok items, { s2 with len := wsub cur_len n })

/-- Method `Reader::read_unknown`: dispatch on the low 3 bits of the tag.
Wire type 0 skips one varint; 1 and 5 do `self.len -= 8`/`-= 4` and an
exact read; 2 decodes a varint length (early `Ok` when zero), does the
unchecked `self.len -= len`, and reads that many bytes; 3 and 4 fail with
`Deprecated("group")`; anything else with `UnknownWireType`. -/
def read_unknown (tag_value : Nat) (s : Reader) : Except ErrorKind Unit × Reader :=
  match tag_value &&& 0x7 with
  | 0 =>
    (match read_varint s with
     | (Except.error e, s') => (Except.error e, s')
     | (Except.ok _, s') => (Except.ok (), s'))
  | 1 =>
    let s1 : Reader := { s with len := wsub s.len 8 }
    if 8 ≤ s1.inner.length then (Except.ok (), { s1 with inner := s1.inner.drop 8 })
    else (Except.error ErrorKind.Io, s1)
  | 2 =>
    (match read_varint s with
     | (Except.error e, s') => (Except.error e, s')
     | (Except.ok v, s') =>
       let n := v % USIZE
       if n = 0 then (Except.ok (), s')
       else
         let s2 : Reader := { s' with len := wsub s'.len n }
         if n ≤ s2.inner.length then (Except.ok (), { s2 with inner := s2.inner.drop n })
         else (Except.error ErrorKind.Io, s2))
  | 3 => (Except.error (ErrorKind.Deprecated "group"), s)
  | 4 => (Except.error (ErrorKind.Deprecated "group"), s)
  | 5 =>
    let s1 : Reader := { s with len := wsub s.len 4 }
    if 4 ≤ s1.inner.length then (Except.ok (), { s1 with inner := s1.inner.drop 4 })
    else (Except.error ErrorKind.Io, s1)
  | t => (Except.error (ErrorKind.UnknownWireType t), s)

/-- Struct `Packed<'a, F>` of `src/src/packed.rs`: an iterator over packed
repeated fields, owning a scoped reader and the per-item decode function
(modelled as a pure state-passing function on the reader). -/
structure Packed (M : Type) where
  reader : Reader
  read : Reader → M × Reader

/-- Method `Iterator::next` for `Packed`: if the scoped reader `is_eof`, no item;
otherwise invoke the supplied function once against the scoped reader. -/
def Packed.next {M : Type} (p : Packed M) : Option M × Packed M :=
  if p.reader.is_eof then (none, p)
  else
    let mr := p.read p.reader
    (some mr.1, { p with reader := mr.2 })

/-- Modelled from the spec: `Reader::from_bytes`, referred to by
`Packed::new` in `src/src/packed.rs` but absent from `src/src/reader.rs`.
Per §3/§4.1 the packed adapter's engine is scoped "directly from a slice
whose total length is fixed at construction", so the budget is the slice
length. -/
def Reader.from_bytes (bytes : List Nat) : Reader :=
  { inner := bytes, len := bytes.length }

/-- Constructor `Packed::new`: a `Packed` iterator over the chunk of data of the
packed field, with the supplied item-read closure. -/
def Packed.new {M : Type} (bytes : List Nat) (read : Reader → M × Reader) : Packed M :=
  { reader := Reader.from_bytes bytes, read := read }

/-- Modelled from the spec: the varint encoder (§6: "little-endian
base-128 groups, continuation = high bit; at most 10 bytes") — the
writer half of the crate is not under `src/`.  Recursion is by fuel;
10 groups cover every 64-bit value. -/
def encodeVarintAux : Nat → Nat → List Nat
  | 0, _ => []
  | fuel + 1, v =>
    if v < 0x80 then [v] else (v % 0x80 + 0x80) :: encodeVarintAux fuel (v / 0x80)

/-- Modelled from the spec: varint encoding of an unsigned 64-bit value. -/
def encode_varint (v : Nat) : List Nat := encodeVarintAux 10 v

/-- Modelled from the spec: zig-zag encoding `n → (n << 1) ^ (n >> 31)`
on `i32` (§6), expressed on bit patterns: the pattern of `n << 1` is the
wrapped double of the pattern of `n`, and the pattern of the arithmetic
shift `n >> 31` is all-ones for negative `n` and zero otherwise. -/
def zigzag_encode32 (n : Int) : Nat :=
  ((n % 2 ^ 32).toNat * 2 % 2 ^ 32) ^^^ (if n < 0 then 2 ^ 32 - 1 else 0)

/-- Modelled from the spec: zig-zag encoding `n → (n << 1) ^ (n >> 63)`
on `i64` (§6), on bit patterns as in `zigzag_encode32`. -/
def zigzag_encode64 (n : Int) : Nat :=
  ((n % 2 ^ 64).toNat * 2 % 2 ^ 64) ^^^ (if n < 0 then 2 ^ 64 - 1 else 0)

/-- The value that the `read_varint` accumulator gains from a byte list
whose first byte is shifted by `i`: each byte contributes its low 7 bits,
successive bytes at successive shifts of 7. -/
def varintValFrom : List Nat → Nat → Nat
  | [], _ => 0
  | b :: bs, i => ((b &&& 0x7f) <<< i) ||| varintValFrom bs (i + 7)


/-! ## Arithmetic helper lemmas -/

theorem USIZE_pos : 0 < USIZE := by norm_num [USIZE]

theorem wsub_lt (a b : Nat) : wsub a b < USIZE :=
  Nat.mod_lt _ USIZE_pos

theorem wsub_small {a b : Nat} (h : b ≤ a) (ha : a < USIZE) : wsub a b = a - b := by
  unfold wsub USIZE at *
  omega

theorem wsub_wsub {a : Nat} (m k : Nat) : wsub (wsub a m) k = wsub a (m + k) := by
  unfold wsub USIZE
  omega

/-! ## Bit-manipulation helper lemmas -/

theorem land_7f (b : Nat) : b &&& 0x7f = b % 0x80 := by
  have h : (0x7f : Nat) = 2 ^ 7 - 1 := rfl
  have h2 : (0x80 : Nat) = 2 ^ 7 := rfl
  rw [h, h2, Nat.and_pow_two_sub_one_eq_mod]

theorem merge7 (v i : Nat) :
    ((v % 0x80) <<< i) ||| ((v / 0x80) <<< (i + 7)) = v <<< i := by
  have hlt : (v % 0x80) * 2 ^ i < 2 ^ (i + 7) := by
    have hm : v % 0x80 < 2 ^ 7 := Nat.mod_lt _ (by norm_num)
    calc (v % 0x80) * 2 ^ i < 2 ^ 7 * 2 ^ i :=
          Nat.mul_lt_mul_of_lt_of_le hm (Nat.le_refl _) (Nat.two_pow_pos i)
      _ = 2 ^ (i + 7) := by rw [← Nat.pow_add]; ring_nf
  have h2 : (v / 0x80) <<< (i + 7) = 2 ^ (i + 7) * (v / 0x80) := by
    rw [Nat.shiftLeft_eq]; ring
  rw [Nat.shiftLeft_eq, h2, Nat.lor_comm, ← Nat.mul_add_lt_is_or hlt (v / 0x80)]
  have hv : 0x80 * (v / 0x80) + v % 0x80 = v := Nat.div_add_mod v 0x80
  rw [Nat.shiftLeft_eq]
  calc 2 ^ (i + 7) * (v / 0x80) + v % 0x80 * 2 ^ i
      = (0x80 * (v / 0x80) + v % 0x80) * 2 ^ i := by
        rw [Nat.pow_add]; ring
    _ = v * 2 ^ i := by rw [hv]

theorem xor_allones : ∀ (k x : Nat), x < 2 ^ k → x ^^^ (2 ^ k - 1) = 2 ^ k - 1 - x := by
  intro k
  induction k with
  | zero =>
    intro x hx
    have : x = 0 := by omega
    simp [this]
  | succ k ih =>
    intro x hx
    have h2 : 2 ^ (k + 1) = 2 * 2 ^ k := by rw [Nat.pow_succ]; ring
    have hpos : 1 ≤ 2 ^ k := Nat.one_le_two_pow
    have hdiv : (x ^^^ (2 ^ (k + 1) - 1)) / 2 = 2 ^ k - 1 - x / 2 := by
      rw [Nat.xor_div_two]
      have : (2 ^ (k + 1) - 1) / 2 = 2 ^ k - 1 := by omega
      rw [this]
      exact ih _ (by omega)
    have hM : (2 ^ (k + 1) - 1) % 2 = 1 := by omega
    have hx2 := Nat.mod_two_eq_zero_or_one x
    have he2 := Nat.mod_two_eq_zero_or_one (x ^^^ (2 ^ (k + 1) - 1))
    have hiff := @Nat.xor_mod_two_eq_one x (2 ^ (k + 1) - 1)
    have hmod : (x ^^^ (2 ^ (k + 1) - 1)) % 2 = 1 - x % 2 := by
      rcases hx2 with h | h
      · have : (x ^^^ (2 ^ (k + 1) - 1)) % 2 = 1 := by
          rw [hiff, hM]
          simp [h]
        omega
      · have : ¬ ((x ^^^ (2 ^ (k + 1) - 1)) % 2 = 1) := by
          rw [hiff, hM]
          simp [h]
        omega
    have hsplit := Nat.div_add_mod (x ^^^ (2 ^ (k + 1) - 1)) 2
    have hxsplit := Nat.div_add_mod x 2
    omega

/-! ## Varint encoder lemmas -/

theorem encAux_length_le :
    ∀ (k : Nat) (v F : Nat), v < 2 ^ (7 * k) → 1 ≤ k → k ≤ F →
      (encodeVarintAux F v).length ≤ k := by
  intro k
  induction k with
  | zero => omega
  | succ k ih =>
    intro v F hv _ hF
    match F, hF with
    | F + 1, _ =>
      by_cases hsmall : v < 0x80
      · simp [encodeVarintAux, hsmall]
      · rw [encodeVarintAux, if_neg hsmall]
        have hrec : v / 0x80 < 2 ^ (7 * k) := by
          have : v < 2 ^ (7 * k) * 0x80 := by
            have h1 : 2 ^ (7 * (k + 1)) = 2 ^ (7 * k) * 0x80 := by
              rw [show 7 * (k + 1) = 7 * k + 7 by ring, Nat.pow_add]
            omega
          omega
        have hk : 1 ≤ k := by
          by_contra hk0
          have : k = 0 := by omega
          subst this
          simp at hrec
          omega
        have := ih (v / 0x80) F hrec hk (by omega)
        simpa using this

theorem encAux_length_big :
    ∀ (k : Nat) (v F : Nat), 2 ^ (7 * k) ≤ v → v < 2 ^ (7 * k) * 2 → k + 1 ≤ F →
      (encodeVarintAux F v).length = k + 1 := by
  intro k
  induction k with
  | zero =>
    intro v F h1 h2 hF
    have h0 : (2:Nat) ^ (7 * 0) = 1 := by norm_num
    have : v = 1 := by omega
    subst this
    match F, hF with
    | F + 1, _ => simp [encodeVarintAux]
  | succ k ih =>
    intro v F h1 h2 hF
    have hpow : 2 ^ (7 * (k + 1)) = 2 ^ (7 * k) * 0x80 := by
      rw [show 7 * (k + 1) = 7 * k + 7 by ring, Nat.pow_add]
    have hbig : ¬ v < 0x80 := by
      have : (0x80 : Nat) ≤ 2 ^ (7 * (k + 1)) := by
        have : (1 : Nat) ≤ 2 ^ (7 * k) := Nat.one_le_two_pow
        omega
      omega
    match F, hF with
    | F + 1, _ =>
      rw [encodeVarintAux, if_neg hbig]
      have hd1 : 2 ^ (7 * k) ≤ v / 0x80 := by omega
      have hd2 : v / 0x80 < 2 ^ (7 * k) * 2 := by omega
      have := ih (v / 0x80) F hd1 hd2 (by omega)
      simpa using this

/-! ## Varint loop lemmas: decoding an encoder-produced byte sequence -/

theorem loop_ok_small :
    ∀ (v : Nat), ∀ (F k r i : Nat) (rest : List Nat) (len : Nat),
      v < 2 ^ (7 * k) → 1 ≤ k → k ≤ F → len < USIZE →
      (encodeVarintAux F v).length ≤ len →
      readVarintLoop k r i { inner := encodeVarintAux F v ++ rest, len := len } =
        (Except.ok (r ||| v <<< i),
         { inner := rest, len := len - (encodeVarintAux F v).length }) := by
  intro v
  induction v using Nat.strong_induction_on with
  | _ v ih =>
    intro F k r i rest len hv hk hkF hlen hklen
    match k, hk with
    | k + 1, _ =>
      match F, hkF with
      | F + 1, _ =>
        by_cases hsmall : v < 0x80
        · rw [encodeVarintAux, if_pos hsmall]
          rw [encodeVarintAux, if_pos hsmall] at hklen
          simp only [List.cons_append, List.length_cons, List.length_nil]
          rw [readVarintLoop]
          simp only [read_u8]
          rw [if_pos hsmall]
          have hand : v &&& 0x7f = v := by
            rw [land_7f]; omega
          rw [hand]
          have hws : wsub len 1 = len - 1 :=
            wsub_small (by simp at hklen; omega) hlen
          simp [hws]
        · rw [encodeVarintAux, if_neg hsmall]
          rw [encodeVarintAux, if_neg hsmall] at hklen
          simp only [List.cons_append, List.length_cons]
          simp only [List.length_cons] at hklen
          rw [readVarintLoop]
          simp only [read_u8]
          have hbge : ¬ (v % 0x80 + 0x80 < 0x80) := by omega
          rw [if_neg hbge]
          have hand : (v % 0x80 + 0x80) &&& 0x7f = v % 0x80 := by
            rw [land_7f]; omega
          rw [hand]
          have hws : wsub len 1 = len - 1 := wsub_small (by omega) hlen
          rw [hws]
          have hk1 : 1 ≤ k := by
            by_contra hk0
            have hkz : k = 0 := by omega
            subst hkz
            have : (2:Nat) ^ (7 * 1) = 0x80 := by norm_num
            omega
          have hrec : v / 0x80 < 2 ^ (7 * k) := by
            have h1 : 2 ^ (7 * (k + 1)) = 2 ^ (7 * k) * 0x80 := by
              rw [show 7 * (k + 1) = 7 * k + 7 by ring, Nat.pow_add]
            omega
          have := ih (v / 0x80) (by omega) F k (r ||| (v % 0x80) <<< i) (i + 7)
              rest (len - 1) hrec hk1 (by omega) (by omega) (by omega)
          rw [this]
          rw [Nat.lor_assoc, merge7]
          have hfin : len - 1 - (encodeVarintAux F (v / 0x80)).length =
              len - ((encodeVarintAux F (v / 0x80)).length + 1) := by omega
          rw [hfin]

theorem loop_ok_big :
    ∀ (k : Nat), ∀ (v F r : Nat) (rest : List Nat) (len : Nat),
      k ≤ 9 → 2 ^ (7 * k) ≤ v → v < 2 ^ (7 * k) * 2 → k + 1 ≤ F →
      len < USIZE → k + 1 ≤ len →
      readVarintLoop k r (7 * (9 - k)) { inner := encodeVarintAux F v ++ rest, len := len } =
        (Except.ok (r ||| v <<< (7 * (9 - k))),
         { inner := rest, len := len - (k + 1) }) := by
  intro k
  induction k with
  | zero =>
    intro v F r rest len _ h1 h2 hF hlen hklen
    have h0 : (2:Nat) ^ (7 * 0) = 1 := by norm_num
    have hv : v = 1 := by omega
    subst hv
    match F, hF with
    | F + 1, _ =>
      rw [encodeVarintAux, if_pos (by norm_num)]
      simp only [List.cons_append]
      rw [readVarintLoop]
      simp only [read_u8]
      have hws : wsub len 1 = len - 1 := wsub_small (by omega) hlen
      norm_num [hws]
  | succ k ih =>
    intro v F r rest len hk9 h1 h2 hF hlen hklen
    have hpow : 2 ^ (7 * (k + 1)) = 2 ^ (7 * k) * 0x80 := by
      rw [show 7 * (k + 1) = 7 * k + 7 by ring, Nat.pow_add]
    have hbig : ¬ v < 0x80 := by
      have : (1 : Nat) ≤ 2 ^ (7 * k) := Nat.one_le_two_pow
      omega
    match F, hF with
    | F + 1, _ =>
      rw [encodeVarintAux, if_neg hbig]
      simp only [List.cons_append]
      rw [readVarintLoop]
      simp only [read_u8]
      have hbge : ¬ (v % 0x80 + 0x80 < 0x80) := by omega
      rw [if_neg hbge]
      have hand : (v % 0x80 + 0x80) &&& 0x7f = v % 0x80 := by
        rw [land_7f]; omega
      rw [hand]
      have hws : wsub len 1 = len - 1 := wsub_small (by omega) hlen
      rw [hws]
      have hi : 7 * (9 - (k + 1)) + 7 = 7 * (9 - k) := by omega
      rw [hi]
      have hd1 : 2 ^ (7 * k) ≤ v / 0x80 := by omega
      have hd2 : v / 0x80 < 2 ^ (7 * k) * 2 := by omega
      have := ih (v / 0x80) F (r ||| (v % 0x80) <<< (7 * (9 - (k + 1)))) rest (len - 1)
          (by omega) hd1 hd2 (by omega) (by omega) (by omega)
      rw [this]
      rw [Nat.lor_assoc]
      rw [show 7 * (9 - k) = 7 * (9 - (k + 1)) + 7 by omega]
      rw [merge7]
      have hfin : len - 1 - (k + 1) = len - (k + 1 + 1) := by omega
      rw [hfin]

/-- Round trip at the varint level: decoding an encoded 64-bit value from
the front of the source yields the value back, consumes exactly the
encoding, and decrements the budget by exactly the encoding's length. -/
theorem varint_roundtrip (v : Nat) (rest : List Nat) (len : Nat)
    (hv : v < 2 ^ 64) (hlen : len < USIZE)
    (hfit : (encode_varint v).length ≤ len) :
    read_varint { inner := encode_varint v ++ rest, len := len } =
      (Except.ok v, { inner := rest, len := len - (encode_varint v).length }) := by
  rw [read_varint]
  simp only [encode_varint] at hfit ⊢
  by_cases hsmall : v < 2 ^ 63
  · have h63 : (2:Nat) ^ 63 = 2 ^ (7 * 9) := by norm_num
    have := loop_ok_small v 10 9 0 0 rest len (by omega) (by omega) (by omega)
      hlen hfit
    rw [this, Nat.zero_or, Nat.shiftLeft_zero]
  · have h63 : (2:Nat) ^ 63 = 2 ^ (7 * 9) := by norm_num
    have h64 : (2:Nat) ^ 64 = 2 ^ (7 * 9) * 2 := by norm_num
    have hlength : (encodeVarintAux 10 v).length = 10 :=
      encAux_length_big 9 v 10 (by omega) (by omega) (by omega)
    have := loop_ok_big 9 v 10 0 rest len (by omega) (by omega) (by omega) (by omega)
      hlen (by omega)
    rw [show (7 * (9 - 9) : Nat) = 0 by norm_num] at this
    rw [this, Nat.zero_or, Nat.shiftLeft_zero, hlength]

/-! ## Varint loop lemmas: arbitrary well-formed byte sequences -/

theorem loop_bytes_small :
    ∀ (bs : List Nat) (k r i b : Nat) (rest : List Nat) (len : Nat),
      bs.length < k → (∀ x ∈ bs, 0x80 ≤ x) → b < 0x80 → len < USIZE →
      bs.length + 1 ≤ len →
      readVarintLoop k r i { inner := bs ++ b :: rest, len := len } =
        (Except.ok (r ||| varintValFrom (bs ++ [b]) i),
         { inner := rest, len := len - (bs.length + 1) }) := by
  intro bs
  induction bs with
  | nil =>
    intro k r i b rest len hk _ hb hlen hfit
    match k, hk with
    | k + 1, _ =>
      rw [readVarintLoop]
      simp only [read_u8, List.nil_append]
      rw [if_pos hb]
      have hws : wsub len 1 = len - 1 := wsub_small (by simp at hfit; omega) hlen
      simp [hws, varintValFrom]
  | cons b0 bs ih =>
    intro k r i b rest len hk hcont hb hlen hfit
    simp only [List.length_cons] at hk hfit
    match k, hk with
    | k + 1, _ =>
      rw [readVarintLoop]
      simp only [read_u8, List.cons_append]
      have hb0 : 0x80 ≤ b0 := hcont b0 (by simp)
      rw [if_neg (by omega)]
      have hws : wsub len 1 = len - 1 := wsub_small (by omega) hlen
      rw [hws]
      have := ih k (r ||| (b0 &&& 0x7f) <<< i) (i + 7) b rest (len - 1)
        (by omega) (fun x hx => hcont x (by simp [hx])) hb (by omega) (by omega)
      rw [this]
      simp only [List.cons_append, varintValFrom, Nat.lor_assoc, List.length_cons]
      have hfin : len - 1 - (bs.length + 1) = len - (bs.length + 1 + 1) := by omega
      rw [hfin]

theorem loop_bytes_cont :
    ∀ (bs : List Nat) (k r i b10 : Nat) (rest : List Nat) (len : Nat),
      bs.length = k → (∀ x ∈ bs, 0x80 ≤ x) → len < USIZE → k + 1 ≤ len →
      readVarintLoop k r i { inner := bs ++ b10 :: rest, len := len } =
        (if b10 = 0 then Except.ok (r ||| varintValFrom bs i)
         else if b10 = 1 then Except.ok ((r ||| varintValFrom bs i) ||| 1 <<< 63)
         else Except.error ErrorKind.Varint,
         { inner := rest, len := len - (k + 1) }) := by
  intro bs
  induction bs with
  | nil =>
    intro k r i b10 rest len hk _ hlen hfit
    have hk0 : k = 0 := by simp at hk; omega
    subst hk0
    rw [readVarintLoop]
    simp only [read_u8, List.nil_append]
    have hws : wsub len 1 = len - 1 := wsub_small (by omega) hlen
    by_cases h0 : b10 = 0
    · simp [h0, hws, varintValFrom]
    · by_cases h1 : b10 = 1
      · simp [h0, h1, hws, varintValFrom]
      · simp [h0, h1, hws, varintValFrom]
  | cons b0 bs ih =>
    intro k r i b10 rest len hk hcont hlen hfit
    simp only [List.length_cons] at hk
    match k, hk with
    | k + 1, _ =>
      rw [readVarintLoop]
      simp only [read_u8, List.cons_append]
      have hb0 : 0x80 ≤ b0 := hcont b0 (by simp)
      rw [if_neg (by omega)]
      have hws : wsub len 1 = len - 1 := wsub_small (by omega) hlen
      rw [hws]
      have := ih k (r ||| (b0 &&& 0x7f) <<< i) (i + 7) b10 rest (len - 1)
        (by omega) (fun x hx => hcont x (by simp [hx])) (by omega) (by omega)
      rw [this]
      simp only [varintValFrom, Nat.lor_assoc]
      have hfin : len - 1 - (k + 1) = len - (k + 1 + 1) := by omega
      rw [hfin]

theorem loop_consumes_le :
    ∀ (k r i : Nat) (s : Reader),
      s.inner.length ≤ (readVarintLoop k r i s).2.inner.length + (k + 1) := by
  intro k
  induction k with
  | zero =>
    intro r i s
    rw [readVarintLoop]
    rcases s with ⟨inner, len⟩
    cases inner with
    | nil => simp [read_u8]
    | cons b rest =>
      simp only [read_u8]
      by_cases h0 : b = 0
      · simp [h0]
      · by_cases h1 : b = 1
        · simp [h0, h1]
        · simp [h0, h1]
  | succ k ih =>
    intro r i s
    rw [readVarintLoop]
    rcases s with ⟨inner, len⟩
    cases inner with
    | nil => simp [read_u8]
    | cons b rest =>
      simp only [read_u8]
      by_cases hb : b < 0x80
      · simp [hb]
      · rw [if_neg hb]
        have := ih (r ||| (b &&& 0x7f) <<< i) (i + 7) { inner := rest, len := wsub len 1 }
        simp only [List.length_cons]
        simp only at this
        omega

/-- Value `1` exactly when the outcome is the underlying-source I/O error:
the amount by which `read_varint`'s budget decrement overshoots the
bytes actually consumed. -/
def ioExtra {α : Type} : Except ErrorKind α → Nat
  | Except.error ErrorKind.Io => 1
  | _ => 0

theorem loop_budget :
    ∀ (k r i : Nat) (s : Reader) (out : Except ErrorKind Nat) (s' : Reader),
      readVarintLoop k r i s = (out, s') →
      s'.inner.length ≤ s.inner.length ∧
      s'.len = wsub s.len ((s.inner.length - s'.inner.length) + ioExtra out) := by
  intro k
  induction k with
  | zero =>
    intro r i s out s' h
    rw [readVarintLoop] at h
    rcases s with ⟨inner, len⟩
    cases inner with
    | nil =>
      simp only [read_u8] at h
      rcases h with ⟨rfl, rfl⟩
      simp [ioExtra]
    | cons b rest =>
      simp only [read_u8] at h
      by_cases h0 : b = 0
      · rw [if_pos h0] at h
        rcases h with ⟨rfl, rfl⟩
        simp [ioExtra]
      · rw [if_neg h0] at h
        by_cases h1 : b = 1
        · rw [if_pos h1] at h
          rcases h with ⟨rfl, rfl⟩
          simp [ioExtra]
        · rw [if_neg h1] at h
          rcases h with ⟨rfl, rfl⟩
          simp [ioExtra]
  | succ k ih =>
    intro r i s out s' h
    rw [readVarintLoop] at h
    rcases s with ⟨inner, len⟩
    cases inner with
    | nil =>
      simp only [read_u8] at h
      rcases h with ⟨rfl, rfl⟩
      simp [ioExtra]
    | cons b rest =>
      simp only [read_u8] at h
      by_cases hb : b < 0x80
      · rw [if_pos hb] at h
        rcases h with ⟨rfl, rfl⟩
        simp [ioExtra]
      · rw [if_neg hb] at h
        have := ih (r ||| (b &&& 0x7f) <<< i) (i + 7) { inner := rest, len := wsub len 1 }
          out s' h
        simp only [List.length_cons] at *
        rcases this with ⟨hle, hlen⟩
        constructor
        · omega
        · rw [hlen, wsub_wsub]
          congr 1
          omega

theorem loop_value_lt :
    ∀ (k r i : Nat) (s : Reader) (v : Nat) (s' : Reader),
      r < 2 ^ i → i = 7 * (9 - k) → k ≤ 9 →
      readVarintLoop k r i s = (Except.ok v, s') → v < 2 ^ 64 := by
  intro k
  induction k with
  | zero =>
    intro r i s v s' hr hi _ h
    subst hi
    rw [readVarintLoop] at h
    rcases s with ⟨inner, len⟩
    cases inner with
    | nil => simp [read_u8] at h
    | cons b rest =>
      simp only [read_u8] at h
      by_cases h0 : b = 0
      · rw [if_pos h0] at h
        simp only [Prod.mk.injEq, Except.ok.injEq] at h
        rcases h with ⟨rfl, -⟩
        exact lt_trans hr (by norm_num)
      · rw [if_neg h0] at h
        by_cases h1 : b = 1
        · rw [if_pos h1] at h
          simp only [Prod.mk.injEq, Except.ok.injEq] at h
          rcases h with ⟨rfl, -⟩
          have hs : (1 : Nat) <<< 63 < 2 ^ 64 := by norm_num [Nat.shiftLeft_eq]
          exact Nat.or_lt_two_pow (lt_trans hr (by norm_num)) hs
        · rw [if_neg h1] at h
          simp at h
  | succ k ih =>
    intro r i s v s' hr hi hk h
    rw [readVarintLoop] at h
    rcases s with ⟨inner, len⟩
    cases inner with
    | nil => simp [read_u8] at h
    | cons b rest =>
      simp only [read_u8] at h
      have hland : b &&& 0x7f < 2 ^ 7 := Nat.and_lt_two_pow b (by norm_num)
      have hshift : (b &&& 0x7f) <<< i < 2 ^ (i + 7) := by
        rw [Nat.shiftLeft_eq]
        calc (b &&& 0x7f) * 2 ^ i < 2 ^ 7 * 2 ^ i :=
              Nat.mul_lt_mul_of_lt_of_le hland (Nat.le_refl _) (Nat.two_pow_pos i)
          _ = 2 ^ (i + 7) := by rw [← Nat.pow_add]; ring_nf
      have hracc : r ||| (b &&& 0x7f) <<< i < 2 ^ (i + 7) :=
        Nat.or_lt_two_pow
          (lt_of_lt_of_le hr (Nat.pow_le_pow_right (by norm_num) (by omega))) hshift
      by_cases hb : b < 0x80
      · rw [if_pos hb] at h
        simp only [Prod.mk.injEq, Except.ok.injEq] at h
        rcases h with ⟨rfl, -⟩
        exact lt_of_lt_of_le hracc (Nat.pow_le_pow_right (by norm_num) (by omega))
      · rw [if_neg hb] at h
        exact ih (r ||| (b &&& 0x7f) <<< i) (i + 7)
          { inner := rest, len := wsub len 1 } v s' hracc (by omega) (by omega) h

theorem read_varint_lt {s : Reader} {v : Nat} {s' : Reader}
    (h : read_varint s = (Except.ok v, s')) : v < 2 ^ 64 :=
  loop_value_lt 9 0 0 s v s' (by norm_num) (by norm_num) (by norm_num) h

/-! ## Zig-zag lemmas -/

theorem zigzag_encode32_lt (n : Int) : zigzag_encode32 n < 2 ^ 32 := by
  unfold zigzag_encode32
  apply Nat.xor_lt_two_pow
  · exact Nat.mod_lt _ (by norm_num)
  · split <;> norm_num

theorem zigzag_encode64_lt (n : Int) : zigzag_encode64 n < 2 ^ 64 := by
  unfold zigzag_encode64
  apply Nat.xor_lt_two_pow
  · exact Nat.mod_lt _ (by norm_num)
  · split <;> norm_num

theorem zz32_round (n : Int) (h1 : -(2 ^ 31) ≤ n) (h2 : n < 2 ^ 31) :
    toSigned32 ((zigzag_encode32 n >>> 1) ^^^
      (if zigzag_encode32 n &&& 1 = 1 then 2 ^ 32 - 1 else 0)) = n := by
  rcases le_or_lt 0 n with hpos | hneg
  · have hmod : n % 2 ^ 32 = n := Int.emod_eq_of_lt hpos (by omega)
    have hu : ((n.toNat : Int)) = n := Int.toNat_of_nonneg hpos
    have hu31 : n.toNat < 2 ^ 31 := by
      have : (n.toNat : Int) < 2 ^ 31 := by rw [hu]; exact h2
      exact_mod_cast this
    have henc : zigzag_encode32 n = n.toNat * 2 := by
      unfold zigzag_encode32
      rw [hmod, if_neg (by omega), Nat.xor_zero]
      exact Nat.mod_eq_of_lt (by omega)
    rw [henc]
    have hand : n.toNat * 2 &&& 1 = 0 := by
      rw [Nat.and_one_is_mod]; omega
    rw [hand, if_neg (by norm_num)]
    rw [Nat.xor_zero]
    have hshr : (n.toNat * 2) >>> 1 = n.toNat := by
      rw [Nat.shiftRight_eq_div_pow, pow_one]; omega
    rw [hshr]
    unfold toSigned32
    rw [if_pos hu31]
    exact hu
  · have hmod : n % 2 ^ 32 = n + 2 ^ 32 := by omega
    have hu : (((n + 2 ^ 32).toNat : Int)) = n + 2 ^ 32 := Int.toNat_of_nonneg (by omega)
    set u := (n + 2 ^ 32).toNat with hudef
    have hub1 : 2 ^ 31 ≤ u := by
      have : (2:Int) ^ 31 ≤ (u : Int) := by rw [hu]; omega
      exact_mod_cast this
    have hub2 : u < 2 ^ 32 := by
      have : (u : Int) < 2 ^ 32 := by rw [hu]; omega
      exact_mod_cast this
    have henc : zigzag_encode32 n = (u * 2 - 2 ^ 32) ^^^ (2 ^ 32 - 1) := by
      unfold zigzag_encode32
      rw [hmod, if_pos hneg, ← hudef]
      have harg : u * 2 % 2 ^ 32 = u * 2 - 2 ^ 32 := by omega
      rw [harg]
    have hz : zigzag_encode32 n = 2 ^ 32 - 1 - (u * 2 - 2 ^ 32) := by
      rw [henc]
      exact xor_allones 32 _ (by omega)
    rw [hz]
    have hand : (2 ^ 32 - 1 - (u * 2 - 2 ^ 32)) &&& 1 = 1 := by
      rw [Nat.and_one_is_mod]; omega
    rw [hand, if_pos rfl]
    have hshr : (2 ^ 32 - 1 - (u * 2 - 2 ^ 32)) >>> 1 = 2 ^ 32 - 1 - u := by
      rw [Nat.shiftRight_eq_div_pow, pow_one]; omega
    rw [hshr]
    rw [xor_allones 32 _ (by omega)]
    have hval : 2 ^ 32 - 1 - (2 ^ 32 - 1 - u) = u := by omega
    rw [hval]
    unfold toSigned32
    rw [if_neg (by omega)]
    rw [hu]
    ring

theorem zz64_round (n : Int) (h1 : -(2 ^ 63) ≤ n) (h2 : n < 2 ^ 63) :
    toSigned64 ((zigzag_encode64 n >>> 1) ^^^
      (if zigzag_encode64 n &&& 1 = 1 then 2 ^ 64 - 1 else 0)) = n := by
  rcases le_or_lt 0 n with hpos | hneg
  · have hmod : n % 2 ^ 64 = n := Int.emod_eq_of_lt hpos (by omega)
    have hu : ((n.toNat : Int)) = n := Int.toNat_of_nonneg hpos
    have hu63 : n.toNat < 2 ^ 63 := by
      have : (n.toNat : Int) < 2 ^ 63 := by rw [hu]; exact h2
      exact_mod_cast this
    have henc : zigzag_encode64 n = n.toNat * 2 := by
      unfold zigzag_encode64
      rw [hmod, if_neg (by omega), Nat.xor_zero]
      exact Nat.mod_eq_of_lt (by omega)
    rw [henc]
    have hand : n.toNat * 2 &&& 1 = 0 := by
      rw [Nat.and_one_is_mod]; omega
    rw [hand, if_neg (by norm_num)]
    rw [Nat.xor_zero]
    have hshr : (n.toNat * 2) >>> 1 = n.toNat := by
      rw [Nat.shiftRight_eq_div_pow, pow_one]; omega
    rw [hshr]
    unfold toSigned64
    rw [if_pos hu63]
    exact hu
  · have hmod : n % 2 ^ 64 = n + 2 ^ 64 := by omega
    have hu : (((n + 2 ^ 64).toNat : Int)) = n + 2 ^ 64 := Int.toNat_of_nonneg (by omega)
    set u := (n + 2 ^ 64).toNat with hudef
    have hub1 : 2 ^ 63 ≤ u := by
      have : (2:Int) ^ 63 ≤ (u : Int) := by rw [hu]; omega
      exact_mod_cast this
    have hub2 : u < 2 ^ 64 := by
      have : (u : Int) < 2 ^ 64 := by rw [hu]; omega
      exact_mod_cast this
    have henc : zigzag_encode64 n = (u * 2 - 2 ^ 64) ^^^ (2 ^ 64 - 1) := by
      unfold zigzag_encode64
      rw [hmod, if_pos hneg, ← hudef]
      have harg : u * 2 % 2 ^ 64 = u * 2 - 2 ^ 64 := by omega
      rw [harg]
    have hz : zigzag_encode64 n = 2 ^ 64 - 1 - (u * 2 - 2 ^ 64) := by
      rw [henc]
      exact xor_allones 64 _ (by omega)
    rw [hz]
    have hand : (2 ^ 64 - 1 - (u * 2 - 2 ^ 64)) &&& 1 = 1 := by
      rw [Nat.and_one_is_mod]; omega
    rw [hand, if_pos rfl]
    have hshr : (2 ^ 64 - 1 - (u * 2 - 2 ^ 64)) >>> 1 = 2 ^ 64 - 1 - u := by
      rw [Nat.shiftRight_eq_div_pow, pow_one]; omega
    rw [hshr]
    rw [xor_allones 64 _ (by omega)]
    have hval : 2 ^ 64 - 1 - (2 ^ 64 - 1 - u) = u := by omega
    rw [hval]
    unfold toSigned64
    rw [if_neg (by omega)]
    rw [hu]
    ring

/-! ## Packed-loop lemmas -/

theorem packedLoop_eof {α : Type} (fuel : Nat) (read : Reader → Except ErrorKind α × Reader)
    (acc : List α) (s : Reader) (h : s.is_eof = true) :
    packedLoop fuel read acc s = some (Except.ok acc.reverse, s) := by
  cases fuel with
  | zero => rw [packedLoop, if_pos h]
  | succ fuel => rw [packedLoop, if_pos h]

theorem packedLoop_step_ok {α : Type} (fuel : Nat) (read : Reader → Except ErrorKind α × Reader)
    (acc : List α) (s : Reader) (m : α) (s' : Reader)
    (he : s.is_eof = false) (hr : read s = (Except.ok m, s')) :
    packedLoop (fuel + 1) read acc s = packedLoop fuel read (m :: acc) s' := by
  rw [packedLoop, if_neg (by simp [he]), hr]

theorem packedLoop_step_err {α : Type} (fuel : Nat) (read : Reader → Except ErrorKind α × Reader)
    (acc : List α) (s : Reader) (e : ErrorKind) (s' : Reader)
    (he : s.is_eof = false) (hr : read s = (Except.error e, s')) :
    packedLoop (fuel + 1) read acc s = some (Except.error e, s') := by
  rw [packedLoop, if_neg (by simp [he]), hr]

theorem packedLoop_ok_eof {α : Type} :
    ∀ (fuel : Nat) (read : Reader → Except ErrorKind α × Reader)
      (acc : List α) (s : Reader) (v : List α) (s' : Reader),
      packedLoop fuel read acc s = some (Except.ok v, s') → s'.is_eof = true := by
  intro fuel
  induction fuel with
  | zero =>
    intro read acc s v s' h
    rw [packedLoop] at h
    by_cases he : s.is_eof = true
    · rw [if_pos he] at h
      simp only [Option.some.injEq, Prod.mk.injEq, Except.ok.injEq] at h
      rcases h with ⟨-, rfl⟩
      exact he
    · rw [if_neg he] at h
      exact absurd h (by simp)
  | succ fuel ih =>
    intro read acc s v s' h
    rw [packedLoop] at h
    by_cases he : s.is_eof = true
    · rw [if_pos he] at h
      simp only [Option.some.injEq, Prod.mk.injEq, Except.ok.injEq] at h
      rcases h with ⟨-, rfl⟩
      exact he
    · rw [if_neg he] at h
      rcases hr : read s with ⟨out, s₂⟩
      rw [hr] at h
      cases out with
      | error e => simp at h
      | ok m => exact ih read (m :: acc) s₂ v s' h

theorem packedLoop_isSome {α : Type} (read : Reader → Except ErrorKind α × Reader)
    (hdec : ∀ (s : Reader) (m : α) (s' : Reader), read s = (Except.ok m, s') → s'.len < s.len) :
    ∀ (fuel : Nat) (acc : List α) (s : Reader), s.len ≤ fuel →
      (packedLoop fuel read acc s).isSome = true := by
  intro fuel
  induction fuel with
  | zero =>
    intro acc s hle
    have he : s.is_eof = true := by
      unfold Reader.is_eof
      simp
      omega
    rw [packedLoop_eof 0 read acc s he]
    rfl
  | succ fuel ih =>
    intro acc s hle
    by_cases he : s.is_eof = true
    · rw [packedLoop_eof _ read acc s he]
      rfl
    · rcases hr : read s with ⟨out, s₂⟩
      cases out with
      | error e =>
        rw [packedLoop_step_err fuel read acc s e s₂ (by simpa using he) hr]
        rfl
      | ok m =>
        rw [packedLoop_step_ok fuel read acc s m s₂ (by simpa using he) hr]
        apply ih
        have := hdec s m s₂ hr
        omega

/-! ## Claim theorems -/

/-- Claim C1: `read_varint` decodes little-endian base-128 varints: it consumes
at most 10 bytes; each of the first nine bytes contributes its low 7
payload bits (high bit = continuation flag); a tenth byte must be `0` or
`1` (carrying only bit 63) and any other tenth byte yields the `Varint`
decode error; on success the result is an unsigned 64-bit value.  The
input `[0x96, 0x01]` decodes to `150` and leaves the engine at EOF. -/
theorem c1_read_varint_base128 :
    (∀ (bs : List Nat) (b : Nat) (rest : List Nat) (len : Nat),
        bs.length ≤ 8 → (∀ x ∈ bs, 0x80 ≤ x) → b < 0x80 →
        len < USIZE → bs.length + 1 ≤ len →
        read_varint { inner := bs ++ b :: rest, len := len } =
          (Except.ok (varintValFrom (bs ++ [b]) 0),
           { inner := rest, len := len - (bs.length + 1) }))
  ∧ (∀ (bs : List Nat) (b10 : Nat) (rest : List Nat) (len : Nat),
        bs.length = 9 → (∀ x ∈ bs, 0x80 ≤ x) → len < USIZE → 10 ≤ len →
        read_varint { inner := bs ++ b10 :: rest, len := len } =
          (if b10 = 0 then Except.ok (varintValFrom bs 0)
           else if b10 = 1 then Except.ok (varintValFrom bs 0 ||| 1 <<< 63)
           else Except.error ErrorKind.Varint,
           { inner := rest, len := len - 10 }))
  ∧ (∀ s : Reader, s.inner.length ≤ (read_varint s).2.inner.length + 10)
  ∧ (∀ (s s' : Reader) (v : Nat), read_varint s = (Except.ok v, s') → v < 2 ^ 64)
  ∧ read_varint { inner := [0x96, 0x01], len := 2 } =
      (Except.ok 150, { inner := [], len := 0 })
  ∧ (read_varint { inner := [0x96, 0x01], len := 2 }).2.is_eof = true := by
  refine ⟨?_, ?_, ?_, ?_, ?_, ?_⟩
  · intro bs b rest len hbs hcont hb hlen hfit
    rw [read_varint, loop_bytes_small bs 9 0 0 b rest len (by omega) hcont hb hlen hfit]
    rw [Nat.zero_or]
  · intro bs b10 rest len hbs hcont hlen hfit
    rw [read_varint, loop_bytes_cont bs 9 0 0 b10 rest len hbs hcont hlen (by omega)]
    rw [Nat.zero_or]
  · intro s
    have := loop_consumes_le 9 0 0 s
    rw [read_varint]
    omega
  · intro s s' v h
    exact read_varint_lt h
  · rfl
  · rfl

/-- Witness for C1: a ten-byte varint whose tenth byte is `2` fails with
the `Varint` error after consuming all ten bytes. -/
theorem c1_witness :
    read_varint { inner :=
        [0x80, 0x80, 0x80, 0x80, 0x80, 0x80, 0x80, 0x80, 0x80] ++ 0x02 :: [], len := 10 } =
      (Except.error ErrorKind.Varint, { inner := [], len := 0 }) := by
  have h := c1_read_varint_base128.2.1
    [0x80, 0x80, 0x80, 0x80, 0x80, 0x80, 0x80, 0x80, 0x80] 0x02 [] 10
    (by decide) (by decide) (by norm_num [USIZE]) (by norm_num)
  simpa using h

/-- Claim C2: for every successful `read_message` or
`read_packed_repeated_field`, the budget on return equals the parent's
budget at scope entry (after the length prefix) minus the declared
sub-length — as the wrapping `usize` subtraction the code performs, and
as exact natural subtraction whenever the declared length fits the
budget — for an arbitrary nested decoder, regardless of how much it
consumed. -/
theorem c2_framing_exactness :
    (∀ (α : Type) (f : Reader → Except ErrorKind α × Reader) (s : Reader) (m : α) (s' : Reader),
        read_message f s = (Except.ok m, s') →
        ∃ v s₁, read_varint s = (Except.ok v, s₁) ∧
          s'.len = wsub s₁.len v ∧
          (v ≤ s₁.len → s₁.len < USIZE → s'.len = s₁.len - v))
  ∧ (∀ (α : Type) (read : Reader → Except ErrorKind α × Reader) (s : Reader)
        (items : List α) (s' : Reader),
        read_packed_repeated_field read s = some (Except.ok items, s') →
        ∃ v s₁, read_varint s = (Except.ok v, s₁) ∧
          s'.len = wsub s₁.len v ∧
          (v ≤ s₁.len → s₁.len < USIZE → s'.len = s₁.len - v)) := by
  constructor
  · intro α f s m s' h
    unfold read_message at h
    rcases hrv : read_varint s with ⟨out, s₁⟩
    rw [hrv] at h
    cases out with
    | error e => simp at h
    | ok v =>
      refine ⟨v, s₁, rfl, ?_⟩
      have hmod : v % USIZE = v :=
        Nat.mod_eq_of_lt (by simpa [USIZE] using read_varint_lt hrv)
      simp only [hmod] at h
      rcases hf : f { inner := s₁.inner, len := v } with ⟨out2, s₂⟩
      rw [hf] at h
      cases out2 with
      | error e => simp at h
      | ok msg =>
        simp only [Prod.mk.injEq] at h
        rcases h with ⟨-, rfl⟩
        exact ⟨rfl, fun hle hlt => wsub_small hle hlt⟩
  · intro α read s items s' h
    unfold read_packed_repeated_field at h
    rcases hrv : read_varint s with ⟨out, s₁⟩
    rw [hrv] at h
    cases out with
    | error e => simp at h
    | ok v =>
      refine ⟨v, s₁, rfl, ?_⟩
      have hmod : v % USIZE = v :=
        Nat.mod_eq_of_lt (by simpa [USIZE] using read_varint_lt hrv)
      simp only [hmod] at h
      rcases hl : packedLoop v read [] { inner := s₁.inner, len := v } with _ | ⟨out2, s₂⟩
      · rw [hl] at h
        simp at h
      · rw [hl] at h
        cases out2 with
        | error e => simp at h
        | ok vv =>
          simp only [Option.some.injEq, Prod.mk.injEq] at h
          rcases h with ⟨-, rfl⟩
          exact ⟨rfl, fun hle hlt => wsub_small hle hlt⟩

/-- Witness for C2: a nested decoder that consumes nothing still leaves
the parent budget at `entry budget - declared length`. -/
theorem c2_witness :
    ∃ v s₁, read_varint (from_reader [2, 9, 9] 3) = (Except.ok v, s₁) ∧
      (({ inner := [9, 9], len := 0 } : Reader)).len = wsub s₁.len v ∧
      (v ≤ s₁.len → s₁.len < USIZE →
        (({ inner := [9, 9], len := 0 } : Reader)).len = s₁.len - v) :=
  c2_framing_exactness.1 Nat (fun s => (Except.ok 0, s)) (from_reader [2, 9, 9] 3) 0
    { inner := [9, 9], len := 0 } (by rfl)

/-- Claim C3 (amended): on success, `read_varint`, the fixed-width reads and
`read_bytes` decrement the budget by exactly the bytes consumed; but the
failure is not atomic: the budget is decremented *before* each underlying
read, so an I/O failure leaves it over-decremented by the attempted
width (`ioExtra` = 1 for the failed varint byte; the full 8 for
`read_fixed64`, which consumes nothing on failure). -/
theorem c3_budget_accounting :
    (∀ (s : Reader) (out : Except ErrorKind Nat) (s' : Reader),
        read_varint s = (out, s') →
        s'.inner.length ≤ s.inner.length ∧
        s'.len = wsub s.len ((s.inner.length - s'.inner.length) + ioExtra out))
  ∧ (∀ (s : Reader) (v : Nat) (s' : Reader),
        read_fixed64 s = (Except.ok v, s') →
        s.inner.length - s'.inner.length = 8 ∧ s'.len = wsub s.len 8)
  ∧ (∀ (s s' : Reader),
        read_fixed64 s = (Except.error ErrorKind.Io, s') →
        s'.inner = s.inner ∧ s'.len = wsub s.len 8)
  ∧ (∀ (s : Reader) (bs : List Nat) (s' : Reader),
        read_bytes s = (Except.ok bs, s') →
        s'.inner.length ≤ s.inner.length ∧
        s'.len = wsub s.len (s.inner.length - s'.inner.length)) := by
  refine ⟨?_, ?_, ?_, ?_⟩
  · intro s out s' h
    exact loop_budget 9 0 0 s out s' h
  · intro s v s' h
    unfold read_fixed64 at h
    by_cases hlen : 8 ≤ s.inner.length
    · rw [if_pos hlen] at h
      simp only [Prod.mk.injEq] at h
      rcases h with ⟨-, rfl⟩
      simp only [List.length_drop]
      exact ⟨by omega, by trivial⟩
    · rw [if_neg hlen] at h
      simp at h
  · intro s s' h
    unfold read_fixed64 at h
    by_cases hlen : 8 ≤ s.inner.length
    · rw [if_pos hlen] at h
      simp at h
    · rw [if_neg hlen] at h
      simp only [Prod.mk.injEq] at h
      rcases h with ⟨-, rfl⟩
      exact ⟨rfl, rfl⟩
  · intro s bs s' h
    unfold read_bytes at h
    rcases hrv : read_varint s with ⟨out, s₁⟩
    rw [hrv] at h
    cases out with
    | error e => simp at h
    | ok v =>
      have hmod : v % USIZE = v :=
        Nat.mod_eq_of_lt (by simpa [USIZE] using read_varint_lt hrv)
      simp only [hmod] at h
      have hb := loop_budget 9 0 0 s (Except.ok v) s₁ hrv
      simp only [ioExtra, Nat.add_zero] at hb
      rcases hb with ⟨hle1, hlen1⟩
      by_cases hif : v ≤ s₁.inner.length
      · rw [if_pos hif] at h
        simp only [Prod.mk.injEq] at h
        rcases h with ⟨-, rfl⟩
        simp only [List.length_drop]
        constructor
        · omega
        · rw [hlen1, wsub_wsub]
          have : s.inner.length - (s₁.inner.length - v) =
              s.inner.length - s₁.inner.length + v := by omega
          rw [this]
      · rw [if_neg hif] at h
        simp at h

/-- Counterexample for C3 as stated: on an exhausted source, `read_varint`
consumes zero bytes yet still decrements the budget (from 5 to 4), so the
post-error budget is inconsistent with the bytes actually read. -/
theorem c3_counterexample :
    read_varint { inner := [], len := 5 } =
      (Except.error ErrorKind.Io, { inner := [], len := 4 }) ∧
    ¬ ((read_varint { inner := [], len := 5 }).2.len =
        5 - (([] : List Nat).length -
          (read_varint { inner := [], len := 5 }).2.inner.length)) := by
  exact ⟨rfl, by decide⟩

/-- Witness for C3 (amended): `read_fixed64` on a 3-byte source fails with
the I/O error, consumes nothing, and has already decremented the budget
by the full 8. -/
theorem c3_witness :
    ({ inner := [1, 2, 3], len := 12 } : Reader).inner = [1, 2, 3] ∧
    ({ inner := [1, 2, 3], len := 12 } : Reader).len = wsub 20 8 :=
  c3_budget_accounting.2.2.1 { inner := [1, 2, 3], len := 20 }
    { inner := [1, 2, 3], len := 12 } (by rfl)

/-- Claim C4: the budget decrement is unchecked.  With declared length 5 and a
remaining budget of 0 at the decrement, `read_bytes` (and the
length-delimited branch of `read_unknown`) performs the wrapping
`len -= 5`: the counter underflows to `2 ^ 64 - 5` — larger than the
pre-call budget 1 — and the operation still returns `Ok`. -/
theorem c4_unchecked_budget_underflow :
    read_bytes { inner := [5, 1, 2, 3, 4, 5], len := 1 } =
      (Except.ok [1, 2, 3, 4, 5], { inner := [], len := 2 ^ 64 - 5 }) ∧
    (1 : Nat) < 2 ^ 64 - 5 ∧
    read_unknown 2 { inner := [5, 1, 2, 3, 4, 5], len := 1 } =
      (Except.ok (), { inner := [], len := 2 ^ 64 - 5 }) := by
  exact ⟨rfl, by norm_num, rfl⟩

/-- Claim C5: zig-zag round trip.  For every signed 32-bit value `n`, decoding
the varint encoding of `(n << 1) ^ (n >> 31)` with `read_sint32` yields
`n`; for every signed 64-bit value `n`, decoding the varint encoding of
`(n << 1) ^ (n >> 63)` with `read_sint64` yields `n` — boundary values
included, the decoder computing `z → (z >> 1) ^ -(z & 1)` in the
corresponding signed width. -/
theorem c5_zigzag_roundtrip :
    (∀ (n : Int) (rest : List Nat) (len : Nat),
        -(2 ^ 31) ≤ n → n < 2 ^ 31 → len < USIZE →
        (encode_varint (zigzag_encode32 n)).length ≤ len →
        read_sint32 { inner := encode_varint (zigzag_encode32 n) ++ rest, len := len } =
          (Except.ok n,
           { inner := rest, len := len - (encode_varint (zigzag_encode32 n)).length }))
  ∧ (∀ (n : Int) (rest : List Nat) (len : Nat),
        -(2 ^ 63) ≤ n → n < 2 ^ 63 → len < USIZE →
        (encode_varint (zigzag_encode64 n)).length ≤ len →
        read_sint64 { inner := encode_varint (zigzag_encode64 n) ++ rest, len := len } =
          (Except.ok n,
           { inner := rest, len := len - (encode_varint (zigzag_encode64 n)).length })) := by
  constructor
  · intro n rest len h1 h2 hlen hfit
    have hvlt : zigzag_encode32 n < 2 ^ 64 :=
      lt_trans (zigzag_encode32_lt n) (by norm_num)
    unfold read_sint32
    rw [varint_roundtrip _ _ _ hvlt hlen hfit]
    dsimp only
    have hm32 : zigzag_encode32 n % 2 ^ 32 = zigzag_encode32 n :=
      Nat.mod_eq_of_lt (zigzag_encode32_lt n)
    rw [hm32, zz32_round n h1 h2]
  · intro n rest len h1 h2 hlen hfit
    have hvlt : zigzag_encode64 n < 2 ^ 64 := zigzag_encode64_lt n
    unfold read_sint64
    rw [varint_roundtrip _ _ _ hvlt hlen hfit]
    dsimp only
    rw [zz64_round n h1 h2]

/-- Witness for C5: the boundary value `i32::MIN` round-trips. -/
theorem c5_witness :
    read_sint32 { inner := encode_varint (zigzag_encode32 (-(2 ^ 31))) ++ [], len := 10 } =
      (Except.ok (-(2 ^ 31)),
       { inner := [],
         len := 10 - (encode_varint (zigzag_encode32 (-(2 ^ 31)))).length }) :=
  c5_zigzag_roundtrip.1 (-(2 ^ 31)) [] 10 (by norm_num) (by norm_num)
    (by norm_num [USIZE]) (by decide)

/-- Claim C6: `read_unknown` skips a well-formed field of wire type 0, 1, 2
or 5, succeeds, decreases the budget by exactly the skipped field's
encoded payload size (the varint's byte count; 8; the length prefix's
byte count plus the declared length; 4), and leaves the source positioned
at the start of the next tag. -/
theorem c6_read_unknown_skip :
    (∀ (tag v : Nat) (rest : List Nat) (len : Nat),
        tag &&& 0x7 = 0 → v < 2 ^ 64 → len < USIZE →
        (encode_varint v).length ≤ len →
        read_unknown tag { inner := encode_varint v ++ rest, len := len } =
          (Except.ok (), { inner := rest, len := len - (encode_varint v).length }))
  ∧ (∀ (tag : Nat) (b8 rest : List Nat) (len : Nat),
        tag &&& 0x7 = 1 → b8.length = 8 → len < USIZE → 8 ≤ len →
        read_unknown tag { inner := b8 ++ rest, len := len } =
          (Except.ok (), { inner := rest, len := len - 8 }))
  ∧ (∀ (tag n : Nat) (payload rest : List Nat) (len : Nat),
        tag &&& 0x7 = 2 → n < 2 ^ 64 → payload.length = n → len < USIZE →
        (encode_varint n).length + n ≤ len →
        read_unknown tag { inner := encode_varint n ++ (payload ++ rest), len := len } =
          (Except.ok (), { inner := rest, len := len - ((encode_varint n).length + n) }))
  ∧ (∀ (tag : Nat) (b4 rest : List Nat) (len : Nat),
        tag &&& 0x7 = 5 → b4.length = 4 → len < USIZE → 4 ≤ len →
        read_unknown tag { inner := b4 ++ rest, len := len } =
          (Except.ok (), { inner := rest, len := len - 4 })) := by
  refine ⟨?_, ?_, ?_, ?_⟩
  · intro tag v rest len htag hv hlen hfit
    unfold read_unknown
    rw [htag]
    rw [varint_roundtrip v rest len hv hlen hfit]
  · intro tag b8 rest len htag hb8 hlen hfit
    unfold read_unknown
    rw [htag]
    dsimp only
    have hlength : 8 ≤ (b8 ++ rest).length := by
      simp [hb8]
    rw [if_pos hlength]
    rw [List.drop_left' hb8]
    rw [wsub_small (by omega) hlen]
  · intro tag n payload rest len htag hn hpay hlen hfit
    unfold read_unknown
    rw [htag]
    have hfit1 : (encode_varint n).length ≤ len := by omega
    rw [varint_roundtrip n (payload ++ rest) len hn hlen hfit1]
    have hmod : n % USIZE = n := Nat.mod_eq_of_lt (by simpa [USIZE] using hn)
    dsimp only
    rw [hmod]
    by_cases hn0 : n = 0
    · rw [if_pos hn0]
      subst hn0
      have : payload = [] := List.length_eq_zero.mp hpay
      subst this
      simp
    · rw [if_neg hn0]
      have hlength : n ≤ (payload ++ rest).length := by
        simp [hpay]
      rw [if_pos hlength]
      rw [List.drop_left' hpay]
      rw [wsub_small (show n ≤ len - (encode_varint n).length by omega) (by omega)]
      have : len - (encode_varint n).length - n =
          len - ((encode_varint n).length + n) := by omega
      rw [this]
  · intro tag b4 rest len htag hb4 hlen hfit
    unfold read_unknown
    rw [htag]
    dsimp only
    have hlength : 4 ≤ (b4 ++ rest).length := by
      simp [hb4]
    rw [if_pos hlength]
    rw [List.drop_left' hb4]
    rw [wsub_small (by omega) hlen]

/-- Witness for C6: skipping a fixed64 field consumes exactly 8 bytes of
budget and leaves the reader at the next tag. -/
theorem c6_witness :
    read_unknown 9 { inner := [0, 0, 0, 0, 0, 0, 0, 0] ++ [7], len := 9 } =
      (Except.ok (), { inner := [7], len := 9 - 8 }) :=
  c6_read_unknown_skip.2.1 9 [0, 0, 0, 0, 0, 0, 0, 0] [7] 9 (by decide) (by decide)
    (by norm_num [USIZE]) (by norm_num)

/-- Claim C7: for every tag whose wire type (low 3 bits) is 3 or 4,
`read_unknown` fails with `Deprecated "group"`; for wire type 6 or 7 it
fails with `UnknownWireType` carrying that wire-type value; in all four
cases the reader state is returned unchanged — no bytes consumed. -/
theorem c7_read_unknown_reject :
    (∀ (tag : Nat) (s : Reader), tag &&& 0x7 = 3 ∨ tag &&& 0x7 = 4 →
        read_unknown tag s = (Except.error (ErrorKind.Deprecated "group"), s))
  ∧ (∀ (tag : Nat) (s : Reader), tag &&& 0x7 = 6 ∨ tag &&& 0x7 = 7 →
        read_unknown tag s = (Except.error (ErrorKind.UnknownWireType (tag &&& 0x7)), s)) := by
  constructor
  · intro tag s h
    rcases h with h | h <;> (unfold read_unknown; rw [h])
  · intro tag s h
    rcases h with h | h <;> (unfold read_unknown; rw [h])

/-- Witness for C7: a start-group tag (wire type 3) is rejected with the
deprecated-group error and consumes nothing. -/
theorem c7_witness :
    read_unknown 11 { inner := [1, 2, 3], len := 3 } =
      (Except.error (ErrorKind.Deprecated "group"), { inner := [1, 2, 3], len := 3 }) :=
  c7_read_unknown_reject.1 11 { inner := [1, 2, 3], len := 3 } (Or.inl (by decide))

/-- Claim C8: the packed sequence never yields a partial item.  Each step of the
packed loop (and of `Packed::next`) first checks `is_eof` and produces no
item when the scope budget is zero; otherwise it decodes exactly one item
by invoking the supplied function; an item-decode error is propagated as
the result of the whole loop — and a successful loop result only occurs
with the scope budget exactly exhausted, never by stopping early with the
items decoded so far. -/
theorem c8_packed_no_partial :
    (∀ (α : Type) (fuel : Nat) (read : Reader → Except ErrorKind α × Reader)
        (acc : List α) (s : Reader), s.is_eof = true →
        packedLoop fuel read acc s = some (Except.ok acc.reverse, s))
  ∧ (∀ (α : Type) (fuel : Nat) (read : Reader → Except ErrorKind α × Reader)
        (acc : List α) (s : Reader) (m : α) (s' : Reader),
        s.is_eof = false → read s = (Except.ok m, s') →
        packedLoop (fuel + 1) read acc s = packedLoop fuel read (m :: acc) s')
  ∧ (∀ (α : Type) (fuel : Nat) (read : Reader → Except ErrorKind α × Reader)
        (acc : List α) (s : Reader) (e : ErrorKind) (s' : Reader),
        s.is_eof = false → read s = (Except.error e, s') →
        packedLoop (fuel + 1) read acc s = some (Except.error e, s'))
  ∧ (∀ (α : Type) (fuel : Nat) (read : Reader → Except ErrorKind α × Reader)
        (acc : List α) (s : Reader) (v : List α) (s' : Reader),
        packedLoop fuel read acc s = some (Except.ok v, s') → s'.is_eof = true)
  ∧ (∀ (M : Type) (p : Packed M),
        (p.reader.is_eof = true → Packed.next p = (none, p)) ∧
        (p.reader.is_eof = false →
          Packed.next p =
            (some (p.read p.reader).1, { p with reader := (p.read p.reader).2 }))) := by
  refine ⟨?_, ?_, ?_, ?_, ?_⟩
  · intro α fuel read acc s h
    exact packedLoop_eof fuel read acc s h
  · intro α fuel read acc s m s' he hr
    exact packedLoop_step_ok fuel read acc s m s' he hr
  · intro α fuel read acc s e s' he hr
    exact packedLoop_step_err fuel read acc s e s' he hr
  · intro α fuel read acc s v s' h
    exact packedLoop_ok_eof fuel read acc s v s' h
  · intro M p
    constructor
    · intro h
      unfold Packed.next
      rw [if_pos h]
    · intro h
      unfold Packed.next
      rw [if_neg (by simp [h])]

/-- Witness for C8: at a zero scope budget the loop yields the items
accumulated so far and no further item. -/
theorem c8_witness :
    packedLoop 3 (fun s => (Except.ok 0, s)) [] { inner := [], len := 0 } =
      some (Except.ok ([] : List Nat).reverse, { inner := [], len := 0 }) :=
  c8_packed_no_partial.1 Nat 3 (fun s => (Except.ok 0, s)) [] { inner := [], len := 0 }
    (by rfl)

/-- Claim C9 (implicit): on failure of the nested decode, the parent budget is
not restored — `read_message` and `read_packed_repeated_field` propagate
the error with the engine state exactly as the failing sub-decode left
it, budget included, not the saved parent value. -/
theorem c9_error_no_restore :
    (∀ (α : Type) (f : Reader → Except ErrorKind α × Reader) (s s₁ s₂ : Reader)
        (v : Nat) (e : ErrorKind),
        read_varint s = (Except.ok v, s₁) →
        f { s₁ with len := v % USIZE } = (Except.error e, s₂) →
        read_message f s = (Except.error e, s₂))
  ∧ (∀ (α : Type) (read : Reader → Except ErrorKind α × Reader) (s s₁ s₂ : Reader)
        (v : Nat) (e : ErrorKind),
        read_varint s = (Except.ok v, s₁) →
        packedLoop (v % USIZE) read [] { s₁ with len := v % USIZE } =
          some (Except.error e, s₂) →
        read_packed_repeated_field read s = some (Except.error e, s₂)) := by
  constructor
  · intro α f s s₁ s₂ v e hrv hf
    unfold read_message
    rw [hrv]
    dsimp only
    rw [hf]
  · intro α read s s₁ s₂ v e hrv hl
    unfold read_packed_repeated_field
    rw [hrv]
    dsimp only
    rw [hl]

/-- Witness for C9: a failing nested decoder leaves the engine budget at
its own residual value `1`, not at the restored parent value `0` (nor at
the saved entry budget `2`). -/
theorem c9_witness :
    read_message (fun s => ((Except.error ErrorKind.Varint : Except ErrorKind Nat),
        { s with len := 1 }))
        (from_reader [2, 9, 9] 3) =
      (Except.error ErrorKind.Varint, { inner := [9, 9], len := 1 }) :=
  c9_error_no_restore.1 Nat
    (fun s => ((Except.error ErrorKind.Varint : Except ErrorKind Nat), { s with len := 1 }))
    (from_reader [2, 9, 9] 3) { inner := [9, 9], len := 2 }
    { inner := [9, 9], len := 1 } 2 ErrorKind.Varint (by rfl) (by rfl)

/-- Claim C10 (implicit): termination of the packed loop.  For every item
decoder that strictly decreases the remaining budget on each successful
call, the `while !self.is_eof()` loop terminates: the fuelled embedding
(`none` = still looping after `fuel` iterations) never exhausts fuel equal
to the scope budget, and `read_packed_repeated_field` always returns
`some` result. -/
theorem c10_packed_termination :
    ∀ (α : Type) (read : Reader → Except ErrorKind α × Reader),
      (∀ (s : Reader) (m : α) (s' : Reader), read s = (Except.ok m, s') → s'.len < s.len) →
      (∀ (fuel : Nat) (acc : List α) (s : Reader), s.len ≤ fuel →
        (packedLoop fuel read acc s).isSome = true)
      ∧ (∀ s : Reader, (read_packed_repeated_field read s).isSome = true) := by
  intro α read hdec
  constructor
  · intro fuel acc s hle
    exact packedLoop_isSome read hdec fuel acc s hle
  · intro s
    unfold read_packed_repeated_field
    rcases hrv : read_varint s with ⟨out, s₁⟩
    cases out with
    | error e => rfl
    | ok v =>
      dsimp only
      have hsome := packedLoop_isSome read hdec (v % USIZE) []
        { inner := s₁.inner, len := v % USIZE } (Nat.le_refl _)
      rcases hpl : packedLoop (v % USIZE) read []
          { inner := s₁.inner, len := v % USIZE } with _ | ⟨out2, s₂⟩
      · rw [hpl] at hsome
        simp at hsome
      · cases out2 <;> rfl

/-- Witness for C10: a concrete strictly-budget-decreasing decoder makes
the packed read of a length-3 chunk return a result. -/
theorem c10_witness :
    (read_packed_repeated_field
        (fun s => if s.len = 0 then (Except.error ErrorKind.Io, s)
          else (Except.ok 0, { s with len := s.len - 1 }))
        (from_reader [3, 10, 20, 30, 99] 4)).isSome = true :=
  (c10_packed_termination Nat
    (fun s => if s.len = 0 then (Except.error ErrorKind.Io, s)
      else (Except.ok 0, { s with len := s.len - 1 }))
    (fun s m s' h => by
      dsimp only at h
      by_cases h0 : s.len = 0
      · rw [if_pos h0] at h
        simp at h
      · rw [if_neg h0] at h
        simp only [Prod.mk.injEq] at h
        rcases h with ⟨-, rfl⟩
        exact (by omega : s.len - 1 < s.len))).2
    (from_reader [3, 10, 20, 30, 99] 4)
end QuickProtobuf
